import Mathlib

/-!
Verification of the nsrb fixed-capacity circular buffers (checked / unchecked
ring buffers and the tailless manx accumulator), shallowly embedded from
`src/ring.rs` and `src/manx.rs`.  The backing array becomes a `List`, `usize`
indices become `Nat`, wrapping `u8`/`u16` index arithmetic becomes arithmetic
modulo `2^bitwidth`, and the fallible constructor (which asserts the capacity
limits) returns an `Option`.
-/

set_option linter.unusedSectionVars false
set_option linter.unusedVariables false

namespace Nsrb

/-- Modelled from the spec: the crate-level bounds `NSRB_LOWER_LIMIT`
(default 2); the definition of the constant lives outside the provided
sources, only its uses in `ring.rs` / `manx.rs` are visible. -/
def NSRB_LOWER_LIMIT : Nat := 2

/-- Modelled from the spec: the crate-level bound `NSRB_UPPER_LIMIT`
(default 65535); the definition of the constant lives outside the
provided sources, only its uses in `ring.rs` / `manx.rs` are visible. -/
def NSRB_UPPER_LIMIT : Nat := 65535

/-- Checked ring buffer (`ring!` macro, checked arm):
`struct { tail : usize, head : usize, buffer : [T; size] }`. -/
structure RingBuffer (T : Type) where
  tail : Nat
  head : Nat
  buffer : List T
deriving DecidableEq

variable {T : Type} [Inhabited T]

/-- The struct literal built by `new()` after the asserts pass:
`tail: 0, head: 0, buffer: [T::default(); size]`. -/
def RingBuffer.init (T : Type) [Inhabited T] (size : Nat) : RingBuffer T :=
  { tail := 0, head := 0, buffer := List.replicate size default }

/-- Constructor `new()` of the checked ring buffer: asserts
`size >= NSRB_LOWER_LIMIT` and `size <= NSRB_UPPER_LIMIT` (a failing assert
aborts construction, embedded as `none`), then returns the default-filled
buffer with `head = tail = 0`. -/
def RingBuffer.new (T : Type) [Inhabited T] (size : Nat) : Option (RingBuffer T) :=
  if NSRB_LOWER_LIMIT ≤ size then
    if size ≤ NSRB_UPPER_LIMIT then some (RingBuffer.init T size)
    else none
  else none

/-- Method `push_tail()`: `if self.tail >= size - 1 { self.tail = 0 } else { self.tail += 1 }`. -/
def RingBuffer.push_tail (size : Nat) (rb : RingBuffer T) : RingBuffer T :=
  if size - 1 ≤ rb.tail then { rb with tail := 0 } else { rb with tail := rb.tail + 1 }

/-- Method `push_head()`: advance `head` with the same explicit wraparound test,
then `if self.head == self.tail { self.push_tail() }`. -/
def RingBuffer.push_head (size : Nat) (rb : RingBuffer T) : RingBuffer T :=
  let rb1 : RingBuffer T :=
    if size - 1 ≤ rb.head then { rb with head := 0 } else { rb with head := rb.head + 1 }
  if rb1.head = rb1.tail then rb1.push_tail size else rb1

/-- Method `push(item)`: `self.buffer[self.head] = item; self.push_head();`. -/
def RingBuffer.push (size : Nat) (rb : RingBuffer T) (item : T) : RingBuffer T :=
  RingBuffer.push_head size { rb with buffer := rb.buffer.set rb.head item }

/-- Method `pop()`: if `tail != head`, remember `tail`, `push_tail()`, and return
the element at the remembered index; otherwise `None`.  The returned
reference is embedded as the returned value, paired with the new state. -/
def RingBuffer.pop (size : Nat) (rb : RingBuffer T) : Option T × RingBuffer T :=
  if rb.tail ≠ rb.head then
    (some (rb.buffer.getD rb.tail default), rb.push_tail size)
  else
    (none, rb)

/-- Extra capability `clear()`: `self.tail = self.head;`. -/
def RingBuffer.clear (rb : RingBuffer T) : RingBuffer T :=
  { rb with tail := rb.head }

/-- Extra capability `len()`:
`if self.tail > self.head { self.buffer.len() + self.head - self.tail }
 else { self.head - self.tail }`. -/
def RingBuffer.len (rb : RingBuffer T) : Nat :=
  if rb.head < rb.tail then rb.buffer.length + rb.head - rb.tail
  else rb.head - rb.tail

/-- Iterated `push`, as in the test loops `for i in a..b { rb.push(i) }`. -/
def RingBuffer.pushList (size : Nat) (rb : RingBuffer T) : List T → RingBuffer T
  | [] => rb
  | x :: xs => RingBuffer.pushList size (rb.push size x) xs

/-- Call `pop()` up to `n` times, collecting the returned values in order
and stopping at the first `None`. -/
def RingBuffer.popN (size : Nat) (rb : RingBuffer T) : Nat → List T × RingBuffer T
  | 0 => ([], rb)
  | n + 1 =>
    match rb.pop size with
    | (some x, rb1) =>
      let r := RingBuffer.popN size rb1 n
      (x :: r.1, r.2)
    | (none, rb1) => ([], rb1)

/-- Unchecked ring buffer (`ring!` macro, `@unchecked($int)` arm) with index
modulus `m = <$int>::MAX + 1` (256 for `u8`, 65536 for `u16`):
`struct { tail : $int, head : $int, buffer : [T; <$int>::MAX + 1] }`.
Wrapping `$int` increments are embedded as `% m` arithmetic. -/
structure URingBuffer (T : Type) where
  tail : Nat
  head : Nat
  buffer : List T
deriving DecidableEq

/-- Constructor `new()` of the unchecked ring buffer (the construction after its
`<$int>::MAX <= NSRB_UPPER_LIMIT` assert): default-filled array of length
`m`, `head = tail = 0`. -/
def URingBuffer.init (T : Type) [Inhabited T] (m : Nat) : URingBuffer T :=
  { tail := 0, head := 0, buffer := List.replicate m default }

/-- Unchecked `push(item)`: `self.buffer[self.head] = item; self.head += 1;
if self.head == self.tail { self.tail += 1; }`, increments wrapping mod `m`. -/
def URingBuffer.push (m : Nat) (rb : URingBuffer T) (item : T) : URingBuffer T :=
  let buf := rb.buffer.set rb.head item
  let hd := (rb.head + 1) % m
  if hd = rb.tail then
    { tail := (rb.tail + 1) % m, head := hd, buffer := buf }
  else
    { tail := rb.tail, head := hd, buffer := buf }

/-- Unchecked `pop()`: if `tail != head`, remember `tail`, `self.tail += 1`
(wrapping mod `m`), return the element at the remembered index; else `None`. -/
def URingBuffer.pop (m : Nat) (rb : URingBuffer T) : Option T × URingBuffer T :=
  if rb.tail ≠ rb.head then
    (some (rb.buffer.getD rb.tail default), { rb with tail := (rb.tail + 1) % m })
  else
    (none, rb)

/-- Iterated unchecked `push`. -/
def URingBuffer.pushList (m : Nat) (rb : URingBuffer T) : List T → URingBuffer T
  | [] => rb
  | x :: xs => URingBuffer.pushList m (rb.push m x) xs

/-- Checked manx buffer (`manx!` macro, checked arm):
`struct { head : usize, buffer : [T; size] }`. -/
structure ManxBuffer (T : Type) where
  head : Nat
  buffer : List T
deriving DecidableEq

/-- The struct literal built by manx `new()` after the asserts pass. -/
def ManxBuffer.init (T : Type) [Inhabited T] (size : Nat) : ManxBuffer T :=
  { head := 0, buffer := List.replicate size default }

/-- Manx `new()`: same `NSRB_LOWER_LIMIT` / `NSRB_UPPER_LIMIT` asserts as
the checked ring buffer, then the default-filled buffer with `head = 0`. -/
def ManxBuffer.new (T : Type) [Inhabited T] (size : Nat) : Option (ManxBuffer T) :=
  if NSRB_LOWER_LIMIT ≤ size then
    if size ≤ NSRB_UPPER_LIMIT then some (ManxBuffer.init T size)
    else none
  else none

/-- Manx `push(item)`: `self.buffer[self.head] = item;` then advance `head`
with the explicit wraparound test. -/
def ManxBuffer.push (size : Nat) (rb : ManxBuffer T) (item : T) : ManxBuffer T :=
  { head := if size - 1 ≤ rb.head then 0 else rb.head + 1,
    buffer := rb.buffer.set rb.head item }

/-- Manx `items()`: read-only reference to the whole backing array. -/
def ManxBuffer.items (rb : ManxBuffer T) : List T :=
  rb.buffer

/-- Iterated manx `push`. -/
def ManxBuffer.pushList (size : Nat) (rb : ManxBuffer T) : List T → ManxBuffer T
  | [] => rb
  | x :: xs => ManxBuffer.pushList size (rb.push size x) xs

/-- States of a checked ring buffer reachable from a freshly constructed
instance by any sequence of `push`, `pop` and `clear`. -/
inductive RingBuffer.Reachable (T : Type) [Inhabited T] (size : Nat) : RingBuffer T → Prop
  | init : RingBuffer.Reachable T size (RingBuffer.init T size)
  | push (rb : RingBuffer T) (x : T) :
      RingBuffer.Reachable T size rb → RingBuffer.Reachable T size (rb.push size x)
  | pop (rb : RingBuffer T) :
      RingBuffer.Reachable T size rb → RingBuffer.Reachable T size (rb.pop size).2
  | clear (rb : RingBuffer T) :
      RingBuffer.Reachable T size rb → RingBuffer.Reachable T size rb.clear

/-! ### List helper lemmas -/

theorem getD_set_self {l : List T} {j : Nat} (x d : T) (h : j < l.length) :
    (l.set j x).getD j d = x := by
  simp [List.getD_eq_getElem?_getD, List.getElem?_set_self h]

theorem getD_set_ne {l : List T} {i j : Nat} (x d : T) (h : j ≠ i) :
    (l.set j x).getD i d = l.getD i d := by
  simp [List.getD_eq_getElem?_getD, List.getElem?_set_ne h]

theorem getD_range_map {f : Nat → T} {i n : Nat} (d : T) (h : i < n) :
    (((List.range n).map f).getD i d) = f i := by
  simp [List.getD_eq_getElem?_getD, List.getElem?_range h]

theorem range_map_getD (d : T) : ∀ (vs : List T),
    (List.range vs.length).map (fun i => vs.getD i d) = vs := by
  intro vs
  induction vs with
  | nil => rfl
  | cons x xs ih =>
    rw [List.length_cons, List.range_succ_eq_map, List.map_cons, List.map_map]
    simp only [List.getD_cons_zero, Function.comp_def, Nat.succ_eq_add_one,
      List.getD_cons_succ]
    rw [ih]

/-! ### Checked ring buffer: wraparound and length lemmas -/

/-- The explicit compare-and-wrap advance equals `(i + 1) % size` on
in-range indices. -/
theorem wrap_advance {i size : Nat} (h : i < size) :
    (if size - 1 ≤ i then 0 else i + 1) = (i + 1) % size := by
  rcases Nat.lt_or_ge i (size - 1) with h1 | h1
  · rw [if_neg (by omega), Nat.mod_eq_of_lt (by omega)]
  · have hi : i + 1 = size := by omega
    rw [if_pos h1, hi, Nat.mod_self]

theorem push_tail_eq (size : Nat) (rb : RingBuffer T) (h : rb.tail < size) :
    rb.push_tail size = { rb with tail := (rb.tail + 1) % size } := by
  rw [RingBuffer.push_tail, ← wrap_advance h]
  split <;> rfl

theorem pop_of_ne (size : Nat) (rb : RingBuffer T) (h : rb.tail ≠ rb.head) :
    rb.pop size = (some (rb.buffer.getD rb.tail default), rb.push_tail size) := by
  rw [RingBuffer.pop, if_pos h]

theorem pop_of_eq (size : Nat) (rb : RingBuffer T) (h : rb.tail = rb.head) :
    rb.pop size = (none, rb) := by
  rw [RingBuffer.pop, if_neg (by simpa using h)]

theorem len_eq_zero_iff (rb : RingBuffer T) (ht : rb.tail < rb.buffer.length) :
    rb.len = 0 ↔ rb.tail = rb.head := by
  rw [RingBuffer.len]
  split <;> omega

theorem len_push_tail (size : Nat) (rb : RingBuffer T)
    (hb : rb.buffer.length = size) (ht : rb.tail < size) (hh : rb.head < size)
    (hne : rb.tail ≠ rb.head) :
    (rb.push_tail size).len = rb.len - 1 := by
  rw [push_tail_eq size rb ht]
  rw [RingBuffer.len, RingBuffer.len]
  dsimp only
  rcases Nat.lt_or_ge rb.tail (size - 1) with h1 | h1
  · rw [Nat.mod_eq_of_lt (by omega)]
    split <;> split <;> omega
  · have hi : rb.tail + 1 = size := by omega
    rw [hi, Nat.mod_self]
    split <;> split <;> omega

theorem pushList_append (size : Nat) (rb : RingBuffer T) (xs ys : List T) :
    rb.pushList size (xs ++ ys) = (rb.pushList size xs).pushList size ys := by
  induction xs generalizing rb with
  | nil => rfl
  | cons x xs ih => rw [List.cons_append, RingBuffer.pushList, RingBuffer.pushList, ih]

/-- Draining lemma: from a state whose indices are in range, `len` many
`pop` calls all succeed, returning the stored elements starting at `tail`
in ring order, and leave the buffer in the cleared state `tail = head`. -/
theorem popN_drain (size : Nat) : ∀ (k : Nat) (rb : RingBuffer T),
    rb.buffer.length = size → rb.tail < size → rb.head < size → rb.len = k →
    (rb.popN size k).1 =
      (List.range k).map (fun i => rb.buffer.getD ((rb.tail + i) % size) default) ∧
    (rb.popN size k).2 = { rb with tail := rb.head } := by
  intro k
  induction k with
  | zero =>
    intro rb hb ht hh hl
    have hteq : rb.tail = rb.head := (len_eq_zero_iff rb (by omega)).mp hl
    refine ⟨rfl, ?_⟩
    nth_rewrite 1 [← hteq]
    rfl
  | succ k ih =>
    intro rb hb ht hh hl
    have hsz : 0 < size := by omega
    have hne : rb.tail ≠ rb.head := by
      intro he
      have h0 : rb.len = 0 := (len_eq_zero_iff rb (by omega)).mpr he
      omega
    have hb1 : (rb.push_tail size).buffer.length = size := by
      rw [push_tail_eq size rb ht]
      exact hb
    have ht1 : (rb.push_tail size).tail < size := by
      rw [push_tail_eq size rb ht]
      exact Nat.mod_lt _ hsz
    have hh1 : (rb.push_tail size).head < size := by
      rw [push_tail_eq size rb ht]
      exact hh
    have hl1 : (rb.push_tail size).len = k := by
      rw [len_push_tail size rb hb ht hh hne, hl]
      omega
    obtain ⟨ih1, ih2⟩ := ih (rb.push_tail size) hb1 ht1 hh1 hl1
    constructor
    · simp only [RingBuffer.popN, pop_of_ne size rb hne]
      rw [ih1, push_tail_eq size rb ht]
      rw [List.range_succ_eq_map, List.map_cons, List.map_map]
      dsimp only
      congr 1
      · rw [Nat.add_zero, Nat.mod_eq_of_lt ht]
      · apply List.map_congr_left
        intro i _
        simp only [Function.comp_def, Nat.succ_eq_add_one]
        rw [Nat.mod_add_mod]
        have harith : rb.tail + 1 + i = rb.tail + (i + 1) := by omega
        rw [harith]
    · simp only [RingBuffer.popN, pop_of_ne size rb hne]
      rw [ih2, push_tail_eq size rb ht]

/-- Filling lemma: pushing a list of values that fits strictly below the
wraparound point advances `head` by the length of the list, keeps `tail` at 0,
and writes the values consecutively starting at the old `head`. -/
theorem pushList_fill (size : Nat) : ∀ (vs : List T) (rb : RingBuffer T),
    rb.tail = 0 → rb.buffer.length = size → rb.head + vs.length + 1 ≤ size →
    (rb.pushList size vs).tail = 0 ∧
    (rb.pushList size vs).head = rb.head + vs.length ∧
    (rb.pushList size vs).buffer.length = size ∧
    (∀ i, i < rb.head →
      (rb.pushList size vs).buffer.getD i default = rb.buffer.getD i default) ∧
    (∀ i, i < vs.length →
      (rb.pushList size vs).buffer.getD (rb.head + i) default = vs.getD i default) := by
  intro vs
  induction vs with
  | nil =>
    intro rb ht hb _
    exact ⟨ht, by simp [RingBuffer.pushList], by rw [RingBuffer.pushList]; exact hb,
      fun i _ => rfl, fun i hi => absurd hi (by simp)⟩
  | cons x xs ih =>
    intro rb ht hb hcap
    have hlt : rb.head < size - 1 := by
      simp only [List.length_cons] at hcap
      omega
    have hpush : rb.push size x =
        { tail := rb.tail, head := rb.head + 1, buffer := rb.buffer.set rb.head x } := by
      simp only [RingBuffer.push, RingBuffer.push_head]
      rw [if_neg (by dsimp only; omega : ¬ size - 1 ≤ ({ rb with buffer := rb.buffer.set rb.head x } : RingBuffer T).head)]
      rw [if_neg (by dsimp only; omega : ¬ ({ rb with buffer := rb.buffer.set rb.head x } : RingBuffer T).head + 1 = rb.tail)]
    rw [RingBuffer.pushList, hpush]
    have hcap1 : rb.head + 1 + xs.length + 1 ≤ size := by
      simp only [List.length_cons] at hcap
      omega
    obtain ⟨c1, c2, c3, c4, c5⟩ :=
      ih { tail := rb.tail, head := rb.head + 1, buffer := rb.buffer.set rb.head x }
        ht (by dsimp only; rw [List.length_set]; exact hb) (by dsimp only; omega)
    dsimp only at c2 c4 c5
    refine ⟨c1, by rw [c2, List.length_cons]; omega, c3, ?_, ?_⟩
    · intro i hi
      rw [c4 i (by omega), getD_set_ne x default (by omega)]
    · intro i hi
      cases i with
      | zero =>
        have hz := c4 rb.head (by omega)
        have hx : (rb.buffer.set rb.head x).getD rb.head default = x :=
          getD_set_self x default (by omega)
        simp only [Nat.add_zero, List.getD_cons_zero]
        rw [hz, hx]
      | succ j =>
        have harith : rb.head + (j + 1) = rb.head + 1 + j := by omega
        rw [harith, List.getD_cons_succ]
        exact c5 j (by simp only [List.length_cons] at hi; omega)

/-- Advancing via `push_tail` keeps `tail` in range and leaves `head` and the storage
untouched. -/
theorem push_tail_invariant (size : Nat) (hsz : 1 ≤ size) (rb : RingBuffer T) :
    (rb.push_tail size).tail < size ∧ (rb.push_tail size).head = rb.head ∧
    (rb.push_tail size).buffer = rb.buffer := by
  rw [RingBuffer.push_tail]
  split
  · exact ⟨hsz, rfl, rfl⟩
  · next hc =>
    refine ⟨?_, rfl, rfl⟩
    show rb.tail + 1 < size
    omega

/-- Pushing preserves the index-range and storage-length invariants. -/
theorem push_invariant (size : Nat) (hsz : 1 ≤ size) (rb : RingBuffer T) (x : T)
    (ht : rb.tail < size) (hb : rb.buffer.length = size) :
    (rb.push size x).tail < size ∧ (rb.push size x).head < size ∧
    (rb.push size x).buffer.length = size := by
  rw [RingBuffer.push, RingBuffer.push_head]
  set rb0 : RingBuffer T := { rb with buffer := rb.buffer.set rb.head x } with hrb0
  have hb0 : rb0.buffer.length = size := by
    rw [hrb0]
    dsimp only
    rw [List.length_set]
    exact hb
  split
  · set rb1 : RingBuffer T := { rb0 with head := 0 } with hrb1
    split
    · obtain ⟨a, b, c⟩ := push_tail_invariant size hsz rb1
      refine ⟨a, ?_, ?_⟩
      · rw [b, hrb1]
        exact hsz
      · rw [c, hrb1]
        dsimp only
        exact hb0
    · exact ⟨ht, hsz, hb0⟩
  · next hc =>
    set rb1 : RingBuffer T := { rb0 with head := rb0.head + 1 } with hrb1
    have hh1 : rb1.head < size := by
      have hc2 : ¬ size - 1 ≤ rb.head := hc
      show rb.head + 1 < size
      omega
    split
    · obtain ⟨a, b, c⟩ := push_tail_invariant size hsz rb1
      refine ⟨a, ?_, ?_⟩
      · rw [b]
        exact hh1
      · rw [c, hrb1]
        dsimp only
        exact hb0
    · exact ⟨ht, hh1, hb0⟩

/-- Every state reachable from a fresh checked ring buffer keeps both
cursors strictly below the capacity and the storage at full length. -/
theorem reachable_invariant (size : Nat) (hsz : 1 ≤ size) (rb : RingBuffer T)
    (h : RingBuffer.Reachable T size rb) :
    rb.tail < size ∧ rb.head < size ∧ rb.buffer.length = size := by
  induction h with
  | init =>
    refine ⟨hsz, hsz, ?_⟩
    simp [RingBuffer.init]
  | push rb x _ ih => exact push_invariant size hsz rb x ih.1 ih.2.2
  | pop rb _ ih =>
    rw [RingBuffer.pop]
    split
    · dsimp only
      obtain ⟨a, b, c⟩ := push_tail_invariant size hsz rb
      rw [b, c]
      exact ⟨a, ih.2.1, ih.2.2⟩
    · exact ih
  | clear rb _ ih =>
    rw [RingBuffer.clear]
    exact ⟨ih.2.1, ih.2.1, ih.2.2⟩

/-! ### Unchecked ring buffer lemmas -/

theorem upushList_append (m : Nat) (rb : URingBuffer T) (xs ys : List T) :
    rb.pushList m (xs ++ ys) = (rb.pushList m xs).pushList m ys := by
  induction xs generalizing rb with
  | nil => rfl
  | cons x xs ih => rw [List.cons_append, URingBuffer.pushList, URingBuffer.pushList, ih]

/-- Filling an unchecked ring buffer below the wrapping point keeps `tail`
at 0 and advances `head` by one per push. -/
theorem upushList_fill (m : Nat) : ∀ (vs : List T) (rb : URingBuffer T),
    rb.tail = 0 → rb.head + vs.length < m →
    (rb.pushList m vs).tail = 0 ∧ (rb.pushList m vs).head = rb.head + vs.length := by
  intro vs
  induction vs with
  | nil =>
    intro rb ht _
    exact ⟨ht, by simp [URingBuffer.pushList]⟩
  | cons x xs ih =>
    intro rb ht hcap
    have hm : rb.head + 1 < m := by
      simp only [List.length_cons] at hcap
      omega
    have hpush : rb.push m x =
        { tail := rb.tail, head := rb.head + 1, buffer := rb.buffer.set rb.head x } := by
      simp only [URingBuffer.push]
      rw [Nat.mod_eq_of_lt hm, if_neg (by omega : ¬ rb.head + 1 = rb.tail)]
    rw [URingBuffer.pushList, hpush]
    obtain ⟨c1, c2⟩ :=
      ih { tail := rb.tail, head := rb.head + 1, buffer := rb.buffer.set rb.head x }
        ht (by simp only [List.length_cons] at hcap; show rb.head + 1 + xs.length < m; omega)
    refine ⟨c1, ?_⟩
    rw [c2]
    simp only [List.length_cons]
    omega

/-- Pushing exactly `m` values into a fresh unchecked ring buffer of index
modulus `m`: on the final push `head` wraps to 0 and, because it then
equals `tail`, the overwrite-oldest rule advances `tail` to 1. -/
theorem upush_exact_cycle (m : Nat) (hm : 2 ≤ m) (vs : List T) (hlen : vs.length = m) :
    ((URingBuffer.init T m).pushList m vs).head = 0 ∧
    ((URingBuffer.init T m).pushList m vs).tail = 1 := by
  have hne : vs ≠ [] := by
    intro h
    rw [h] at hlen
    simp at hlen
    omega
  obtain ⟨ys, z, hvs⟩ : ∃ ys z, vs = ys ++ [z] :=
    ⟨vs.dropLast, vs.getLast hne, (List.dropLast_append_getLast hne).symm⟩
  have hys : ys.length = m - 1 := by
    rw [hvs, List.length_append, List.length_cons, List.length_nil] at hlen
    omega
  rw [hvs, upushList_append]
  obtain ⟨f1, f2⟩ := upushList_fill m ys (URingBuffer.init T m) rfl
    (by rw [hys]; show 0 + (m - 1) < m; omega)
  rw [URingBuffer.pushList, URingBuffer.pushList]
  set s1 := (URingBuffer.init T m).pushList m ys with hs1
  have hhead : s1.head = m - 1 := by
    rw [f2]
    show 0 + ys.length = m - 1
    omega
  have hwrap : (s1.head + 1) % m = 0 := by
    rw [hhead]
    have hx : m - 1 + 1 = m := by omega
    rw [hx, Nat.mod_self]
  have hpush : s1.push m z =
      { tail := 1, head := 0, buffer := s1.buffer.set s1.head z } := by
    simp only [URingBuffer.push]
    rw [hwrap, if_pos f1.symm, f1]
    have h1 : (0 + 1) % m = 1 := Nat.mod_eq_of_lt (by omega)
    rw [h1]
  rw [hpush]
  exact ⟨rfl, rfl⟩

/-! ### Claim theorems -/

set_option maxRecDepth 100000 in
/-- C1 (counterexample): the claim that an unchecked 8-bit ring buffer has
`head == tail == 0` after exactly 256 pushes with zero pops is false at the
concrete input of pushing 0,1,...,255 into a fresh buffer: the final push
wraps `head` to 0, which triggers the overwrite-oldest rule and advances
`tail` to 1. -/
theorem claim_C1_counterexample :
    ¬ ((((URingBuffer.init Nat 256).pushList 256 (List.range 256)).head = 0) ∧
       (((URingBuffer.init Nat 256).pushList 256 (List.range 256)).tail = 0)) := by
  decide

/-- C1 (amended): for the unchecked ring buffer with an 8-bit index type
(index modulus 256), after exactly 256 pushes of any values with zero pops
on a freshly constructed instance, `head = 0` and `tail = 1` (the
overwrite-oldest rule fires on the wrapping push), so the buffer is
distinguishable from an empty buffer at the index level and the next
`pop()` returns a value. -/
theorem claim_C1_amended (v : Nat → T) :
    (((URingBuffer.init T 256).pushList 256 ((List.range 256).map v)).head = 0) ∧
    (((URingBuffer.init T 256).pushList 256 ((List.range 256).map v)).tail = 1) ∧
    ((((URingBuffer.init T 256).pushList 256 ((List.range 256).map v)).pop 256).1.isSome
      = true) := by
  obtain ⟨h0, h1⟩ := upush_exact_cycle 256 (by omega) ((List.range 256).map v) (by simp)
  refine ⟨h0, h1, ?_⟩
  rw [URingBuffer.pop, if_pos (by rw [h1, h0]; omega)]
  rfl

/-- C2 (counterexample): the claim reads the pushed values as the 16
integers 0..15 inclusive; with 16 pushes into a fresh checked ring buffer
of capacity 10, the pops yield 7,8,...,15, not 6,7,...,14. -/
theorem claim_C2_counterexample :
    (((RingBuffer.init Nat 10).pushList 10 (List.range 16)).popN 10 16).1 ≠
      [6, 7, 8, 9, 10, 11, 12, 13, 14] := by
  decide

/-- C2 (amended): for the checked ring buffer of capacity 10, pushing the
15 integers 0..14 (the exclusive range `0..15` of the source test) with no
intervening pops and then calling `pop()` repeatedly yields 6,7,...,14 in
that order, and thereafter `pop()` returns empty. -/
theorem claim_C2_amended :
    (((RingBuffer.init Nat 10).pushList 10 (List.range 15)).popN 10 15).1 =
      [6, 7, 8, 9, 10, 11, 12, 13, 14] ∧
    ((((RingBuffer.init Nat 10).pushList 10 (List.range 15)).popN 10 15).2.pop 10).1
      = none := by
  decide

/-- C8: for the checked manx buffer of capacity 10, pushing the 14
integers 1..14 (the exclusive range `1..15` of the source test) into a fresh
instance leaves `head = 4`, and every slot of the array returned by
`items()` is non-zero afterward. -/
theorem claim_C8 :
    (((ManxBuffer.init Nat 10).pushList 10 ((List.range 14).map (· + 1))).head = 4) ∧
    (∀ x ∈ ((ManxBuffer.init Nat 10).pushList 10 ((List.range 14).map (· + 1))).items,
      x ≠ 0) := by
  decide

/-- C5: for the checked variants (ring and manx), `new()` fails (the
capacity assert aborts construction, embedded as returning `none`) if and
only if the chosen capacity is below `NSRB_LOWER_LIMIT` or above
`NSRB_UPPER_LIMIT`; on success it returns a default-filled buffer with
`head = tail = 0`. -/
theorem claim_C5 (size : Nat) :
    (RingBuffer.new T size = none ↔
      size < NSRB_LOWER_LIMIT ∨ NSRB_UPPER_LIMIT < size) ∧
    (ManxBuffer.new T size = none ↔
      size < NSRB_LOWER_LIMIT ∨ NSRB_UPPER_LIMIT < size) ∧
    (∀ rb : RingBuffer T, RingBuffer.new T size = some rb →
      rb.head = 0 ∧ rb.tail = 0 ∧ rb.buffer = List.replicate size default) ∧
    (∀ mb : ManxBuffer T, ManxBuffer.new T size = some mb →
      mb.head = 0 ∧ mb.buffer = List.replicate size default) := by
  simp only [RingBuffer.new, ManxBuffer.new, NSRB_LOWER_LIMIT, NSRB_UPPER_LIMIT]
  refine ⟨?_, ?_, ?_, ?_⟩
  · split
    · split
      · next h1 h2 => simp; omega
      · next h1 h2 => simp; omega
    · next h1 => simp; omega
  · split
    · split
      · next h1 h2 => simp; omega
      · next h1 h2 => simp; omega
    · next h1 => simp; omega
  · intro rb h
    split at h
    · split at h
      · simp only [Option.some.injEq] at h
        subst h
        exact ⟨rfl, rfl, rfl⟩
      · exact absurd h (by simp)
    · exact absurd h (by simp)
  · intro mb h
    split at h
    · split at h
      · simp only [Option.some.injEq] at h
        subst h
        exact ⟨rfl, rfl⟩
      · exact absurd h (by simp)
    · exact absurd h (by simp)

/-- C5 witness: instantiation at concrete capacities, 1 (below the lower
limit), 70000 (above the upper limit) and 10 (valid). -/
theorem claim_C5_witness :
    RingBuffer.new Nat 1 = none ∧ ManxBuffer.new Nat 70000 = none ∧
    ((RingBuffer.init Nat 10).head = 0 ∧ (RingBuffer.init Nat 10).tail = 0 ∧
      (RingBuffer.init Nat 10).buffer = List.replicate 10 default) :=
  ⟨(claim_C5 1).1.mpr (by decide),
   (claim_C5 70000).2.1.mpr (by decide),
   (claim_C5 10).2.2.1 (RingBuffer.init Nat 10) (by decide)⟩

/-- C6: for every ring buffer (checked or unchecked), `pop()` on an empty
instance (`tail == head`, which holds for a freshly constructed or freshly
cleared instance) returns none and leaves the buffer state unchanged, so
repeated calls keep returning none; `pop()` is never an error. -/
theorem claim_C6 (size m : Nat) (rb : RingBuffer T) (urb : URingBuffer T)
    (h1 : rb.tail = rb.head) (h2 : urb.tail = urb.head) :
    rb.pop size = (none, rb) ∧
    ((rb.pop size).2).pop size = (none, rb) ∧
    urb.pop m = (none, urb) ∧
    ((urb.pop m).2).pop m = (none, urb) ∧
    (RingBuffer.init T size).tail = (RingBuffer.init T size).head ∧
    rb.clear.tail = rb.clear.head := by
  have hp := pop_of_eq size rb h1
  have hu : urb.pop m = (none, urb) := by
    rw [URingBuffer.pop, if_neg (by simpa using h2)]
  refine ⟨hp, ?_, hu, ?_, rfl, rfl⟩
  · rw [hp]
    exact hp
  · rw [hu]
    exact hu

/-- C6 witness: instantiation at fresh concrete buffers of capacities 3
and 4. -/
theorem claim_C6_witness :
    (RingBuffer.init Nat 3).pop 3 = (none, RingBuffer.init Nat 3) ∧
    (URingBuffer.init Nat 4).pop 4 = (none, URingBuffer.init Nat 4) :=
  have h := claim_C6 3 4 (RingBuffer.init Nat 3) (URingBuffer.init Nat 4) rfl rfl
  ⟨h.1, h.2.2.1⟩

/-- C10: immediately after any push on a ring buffer (checked of capacity
at least 2, or unchecked of index modulus at least 2), `head` differs from
`tail`; consequently a `pop()` performed directly after a push always
returns some value — a push is never silently lost to the empty state. -/
theorem claim_C10 (size m : Nat) (hs : 2 ≤ size) (hm : 2 ≤ m)
    (rb : RingBuffer T) (x : T) (urb : URingBuffer T) (y : T) :
    (rb.push size x).head ≠ (rb.push size x).tail ∧
    ((rb.push size x).pop size).1.isSome = true ∧
    (urb.push m y).head ≠ (urb.push m y).tail ∧
    ((urb.push m y).pop m).1.isSome = true := by
  have hring : (rb.push size x).head ≠ (rb.push size x).tail := by
    rw [RingBuffer.push, RingBuffer.push_head]
    dsimp only
    rcases Nat.lt_or_ge rb.head (size - 1) with hc | hc
    · simp only [if_neg (by omega : ¬ size - 1 ≤ rb.head)]
      split
      · next heq =>
        have heq2 : rb.head + 1 = rb.tail := heq
        rw [RingBuffer.push_tail]
        rcases Nat.lt_or_ge rb.tail (size - 1) with hc2 | hc2
        · rw [if_neg (by omega : ¬ size - 1 ≤ rb.tail)]
          show rb.head + 1 ≠ rb.tail + 1
          omega
        · rw [if_pos (by omega : size - 1 ≤ rb.tail)]
          show rb.head + 1 ≠ 0
          omega
      · next hne =>
        exact fun hcontra => hne hcontra
    · simp only [if_pos (by omega : size - 1 ≤ rb.head)]
      split
      · next heq =>
        have heq2 : (0 : Nat) = rb.tail := heq
        rw [RingBuffer.push_tail]
        rcases Nat.lt_or_ge rb.tail (size - 1) with hc2 | hc2
        · rw [if_neg (by omega : ¬ size - 1 ≤ rb.tail)]
          show (0 : Nat) ≠ rb.tail + 1
          omega
        · rw [if_pos (by omega : size - 1 ≤ rb.tail)]
          show (0 : Nat) ≠ 0
          omega
      · next hne =>
        exact fun hcontra => hne hcontra
  have hu : (urb.push m y).head ≠ (urb.push m y).tail := by
    rw [URingBuffer.push]
    split
    · next heq =>
      show (urb.head + 1) % m ≠ (urb.tail + 1) % m
      intro hcontra
      have ht2 : urb.tail = (urb.tail + 1) % m := heq.symm.trans hcontra
      have hlt : (urb.tail + 1) % m < m := Nat.mod_lt _ (by omega)
      have htm : urb.tail < m := by rw [ht2]; exact hlt
      rcases Nat.lt_or_ge (urb.tail + 1) m with hcase | hcase
      · rw [Nat.mod_eq_of_lt hcase] at ht2
        omega
      · have hmm : urb.tail + 1 = m := by omega
        rw [hmm, Nat.mod_self] at ht2
        omega
    · next hne =>
      show (urb.head + 1) % m ≠ urb.tail
      exact fun hcontra => hne hcontra
  refine ⟨hring, ?_, hu, ?_⟩
  · rw [pop_of_ne size _ hring.symm]
    rfl
  · rw [URingBuffer.pop, if_pos hu.symm]
    rfl

/-- C10 witness: instantiation at concrete fresh buffers of capacity 3 and
index modulus 256, pushing the value 7. -/
theorem claim_C10_witness :
    ((RingBuffer.init Nat 3).push 3 7).head ≠ ((RingBuffer.init Nat 3).push 3 7).tail ∧
    ((URingBuffer.init Nat 256).push 256 7).head ≠
      ((URingBuffer.init Nat 256).push 256 7).tail :=
  have h := claim_C10 3 256 (by decide) (by decide)
    (RingBuffer.init Nat 3) 7 (URingBuffer.init Nat 256) 7
  ⟨h.1, h.2.2.1⟩

/-- C4: for every checked ring buffer of capacity at least 2 and every
sequence of at most capacity-1 distinct values, pushing the values into a
fresh instance and then popping that many times yields exactly the
sequence in the original push order. -/
theorem claim_C4 (size : Nat) (hs : 2 ≤ size) (vs : List T)
    (hnodup : vs.Nodup) (hk : vs.length ≤ size - 1) :
    (((RingBuffer.init T size).pushList size vs).popN size vs.length).1 = vs := by
  obtain ⟨f1, f2, f3, _, f5⟩ := pushList_fill size vs (RingBuffer.init T size) rfl
    (by simp [RingBuffer.init])
    (by show 0 + vs.length + 1 ≤ size; omega)
  set s := (RingBuffer.init T size).pushList size vs with hsdef
  have hinit : (RingBuffer.init T size).head = 0 := rfl
  have hlen : s.len = vs.length := by
    rw [RingBuffer.len, f1, f2, if_neg (by omega)]
    show 0 + vs.length - 0 = vs.length
    omega
  obtain ⟨d1, _⟩ := popN_drain size vs.length s f3 (by omega) (by omega) hlen
  rw [d1, f1]
  have hcongr : ∀ i ∈ List.range vs.length,
      s.buffer.getD ((0 + i) % size) default = vs.getD i default := by
    intro i hi
    rw [List.mem_range] at hi
    rw [Nat.mod_eq_of_lt (by omega : 0 + i < size)]
    exact f5 i hi
  rw [List.map_congr_left hcongr]
  exact range_map_getD default vs

/-- C4 witness: pushing the distinct values 3, 1, 4 into a fresh checked
ring buffer of capacity 5 and popping three times returns them in order. -/
theorem claim_C4_witness :
    (((RingBuffer.init Nat 5).pushList 5 [3, 1, 4]).popN 5 ([3, 1, 4] :
      List Nat).length).1 = [3, 1, 4] :=
  claim_C4 5 (by decide) [3, 1, 4] (by decide) (by decide)

/-- C7: for every checked ring buffer of capacity at least 2 in any
reachable state, the length formula from the source
(tail > head ? buffer.len + head - tail : head - tail) equals the number
of currently readable elements: that many pops all succeed, the pop after
them returns empty, and the value never exceeds capacity - 1. -/
theorem claim_C7 (size : Nat) (hs : 2 ≤ size) (rb : RingBuffer T)
    (hr : RingBuffer.Reachable T size rb) :
    (rb.popN size rb.len).1.length = rb.len ∧
    ((rb.popN size rb.len).2.pop size).1 = none ∧
    rb.len ≤ size - 1 := by
  obtain ⟨ht, hh, hb⟩ := reachable_invariant size (by omega) rb hr
  obtain ⟨d1, d2⟩ := popN_drain size rb.len rb hb ht hh rfl
  refine ⟨?_, ?_, ?_⟩
  · rw [d1, List.length_map, List.length_range]
  · rw [d2, pop_of_eq size _ rfl]
  · rw [RingBuffer.len]
    split <;> omega

/-- C7 witness: instantiation at a fresh checked ring buffer of
capacity 2. -/
theorem claim_C7_witness :
    ((RingBuffer.init Nat 2).popN 2 (RingBuffer.init Nat 2).len).1.length =
      (RingBuffer.init Nat 2).len ∧
    (RingBuffer.init Nat 2).len ≤ 2 - 1 :=
  have h := claim_C7 2 (by decide) (RingBuffer.init Nat 2) RingBuffer.Reachable.init
  ⟨h.1, h.2.2⟩

/-- C9: for every checked ring buffer constructed with a capacity within
the enforced limits, the invariants head < capacity and tail < capacity
hold after construction and are preserved by every push, pop and clear —
i.e. they hold in every reachable state. -/
theorem claim_C9 (size : Nat) (h1 : NSRB_LOWER_LIMIT ≤ size)
    (h2 : size ≤ NSRB_UPPER_LIMIT) (rb : RingBuffer T)
    (hr : RingBuffer.Reachable T size rb) :
    rb.head < size ∧ rb.tail < size := by
  have h1n : 2 ≤ size := h1
  obtain ⟨ht, hh, _⟩ := reachable_invariant size (by omega) rb hr
  exact ⟨hh, ht⟩

/-- C9 witness: instantiation at capacity 10, in the state reached by one
push on a fresh buffer. -/
theorem claim_C9_witness :
    ((RingBuffer.init Nat 10).push 10 5).head < 10 ∧
    ((RingBuffer.init Nat 10).push 10 5).tail < 10 :=
  claim_C9 10 (by decide) (by decide) ((RingBuffer.init Nat 10).push 10 5)
    (RingBuffer.Reachable.push (RingBuffer.init Nat 10) 5 RingBuffer.Reachable.init)

/-- Pushing into a state whose `head` sits at the last slot and whose
`tail` is 0: `head` wraps to 0, collides with `tail`, and the
overwrite-oldest rule advances `tail` to 1. -/
theorem push_at_wrap (size : Nat) (hs : 2 ≤ size) (rb : RingBuffer T)
    (ht : rb.tail = 0) (hh : rb.head = size - 1) (x : T) :
    rb.push size x = { tail := 1, head := 0, buffer := rb.buffer.set rb.head x } := by
  obtain ⟨t, h, b⟩ := rb
  dsimp only at ht hh ⊢
  subst ht
  subst hh
  have h1 : ¬ (size - 1 ≤ 0) := by omega
  simp [RingBuffer.push, RingBuffer.push_head, RingBuffer.push_tail, h1]

/-- C3: for every checked ring buffer of capacity N at least 2, after
exactly N-1 pushes of values v 0, ..., v (N-2) on a fresh instance with no
pops, len() = N-1; one more push (of v (N-1)) raises no error and evicts
the oldest element: the next pop() returns the second value pushed, the
full sequence of possible pops returns v 1, ..., v (N-1) (so the first
value pushed has become unreadable), and the pop after those returns
empty. -/
theorem claim_C3 (size : Nat) (hs : 2 ≤ size) (v : Nat → T) :
    (((RingBuffer.init T size).pushList size ((List.range (size - 1)).map v)).len
      = size - 1) ∧
    ((((RingBuffer.init T size).pushList size ((List.range (size - 1)).map v)).push size
        (v (size - 1))).pop size).1 = some (v 1) ∧
    ((((RingBuffer.init T size).pushList size ((List.range (size - 1)).map v)).push size
        (v (size - 1))).popN size (size - 1)).1
      = (List.range (size - 1)).map (fun i => v (i + 1)) ∧
    (((((RingBuffer.init T size).pushList size ((List.range (size - 1)).map v)).push size
        (v (size - 1))).popN size (size - 1)).2.pop size).1 = none := by
  have hvs : ((List.range (size - 1)).map v).length = size - 1 := by simp
  obtain ⟨f1, f2, f3, _, f5⟩ := pushList_fill size ((List.range (size - 1)).map v)
    (RingBuffer.init T size) rfl (by simp [RingBuffer.init])
    (by rw [hvs]; show 0 + (size - 1) + 1 ≤ size; omega)
  set s1 := (RingBuffer.init T size).pushList size ((List.range (size - 1)).map v)
    with hs1def
  have hinit : (RingBuffer.init T size).head = 0 := rfl
  rw [hvs] at f2
  have hlen1 : s1.len = size - 1 := by
    rw [RingBuffer.len, f1, f2, if_neg (by omega)]
    omega
  have f5a : ∀ i, i < size - 1 → s1.buffer.getD i default = v i := by
    intro i hi
    have hf := f5 i (by rw [hvs]; exact hi)
    rw [show (RingBuffer.init T size).head + i = i from by omega] at hf
    rw [hf, getD_range_map default hi]
  have hpush := push_at_wrap size hs s1 f1 (by omega) (v (size - 1))
  rw [hpush]
  set buf2 := s1.buffer.set s1.head (v (size - 1)) with hbuf2def
  have hbuf2 : ∀ i, 1 ≤ i → i ≤ size - 1 → buf2.getD i default = v i := by
    intro i hi1 hi2
    rcases Nat.lt_or_ge i (size - 1) with hlt | hge
    · rw [hbuf2def, getD_set_ne _ _ (by omega : s1.head ≠ i)]
      exact f5a i hlt
    · have hieq : i = size - 1 := by omega
      have hh2 : s1.head = i := by omega
      rw [hbuf2def, ← hh2, getD_set_self _ _ (by rw [f3]; omega)]
      rw [hh2, hieq]
  have hblen : (buf2 : List T).length = size := by
    rw [hbuf2def, List.length_set]
    exact f3
  have hlen2 : RingBuffer.len { tail := 1, head := 0, buffer := buf2 } = size - 1 := by
    rw [RingBuffer.len]
    dsimp only
    rw [if_pos (by omega), hblen]
    omega
  obtain ⟨d1, d2⟩ := popN_drain size (size - 1)
    { tail := 1, head := 0, buffer := buf2 } hblen (by show 1 < size; omega)
    (by show 0 < size; omega) hlen2
  dsimp only at d1 d2
  refine ⟨hlen1, ?_, ?_, ?_⟩
  · rw [pop_of_ne size _ (by show (1 : Nat) ≠ 0; omega)]
    dsimp only
    rw [hbuf2 1 (by omega) (by omega)]
  · rw [d1]
    apply List.map_congr_left
    intro i hi
    rw [List.mem_range] at hi
    rw [Nat.mod_eq_of_lt (by omega : 1 + i < size)]
    rw [hbuf2 (1 + i) (by omega) (by omega)]
    rw [Nat.add_comm]
  · rw [d2, pop_of_eq size _ rfl]

/-- C3 witness: instantiation at capacity 3 with the identity value
sequence: two pushes give len 2, a third push evicts value 0, the next
pop returns value 1 and the reachable pops are 1, 2. -/
theorem claim_C3_witness :
    (((RingBuffer.init Nat 3).pushList 3 ((List.range 2).map id)).len = 2) ∧
    ((((RingBuffer.init Nat 3).pushList 3 ((List.range 2).map id)).push 3
      (id 2)).pop 3).1 = some (id 1) :=
  have h := claim_C3 3 (by decide) id
  ⟨h.1, h.2.1⟩

end Nsrb
